import Mathlib

/-!
# Verification of the `/proc/self/smaps` parser and RSS query
(`src/client/executor/common/src/test_utils/linux.rs`)

This file shallowly embeds the Rust source:

* `Smaps::new` scans the report text with two multi-line regexes,
  `^([0-9a-f]+)-([0-9a-f]+)` (header lines) and `^([^:]+):\s*(\d+) kB`
  (statistic lines), splits the text into per-region chunks at the header
  match offsets (plus a synthetic terminal boundary at `text.len()`), and
  for each chunk decodes the two base-16 addresses and collects the
  matched `(name, value)` pairs into a `BTreeMap<String, usize>`.
* `Smaps::get_map` finds (`Iterator::find`, i.e. first match in order) the
  region whose half-open range contains the address, panicking (`unwrap`)
  when none does.
* `Smaps::get_rss` looks up `"Rss"` in that map, returning `Option<usize>`.
* `instance_resident_bytes` takes the start of the instance's linear
  memory range and returns `get_rss` of it, `expect`-ing success.

Text is modelled as `List Char`. Fallible operations (`unwrap`, `expect`,
`parse`, `from_str_radix` — whose only failure source at these call sites
is `usize` overflow, `usize` being 64 bits here) are modelled with
`Option`, `none` standing for the panic. The regex engine's semantics is
embedded directly: a multi-line `^` anchor matches at offset 0 and right
after every `'\n'`; `find_iter` / `captures_iter` yield successive
leftmost non-overlapping matches, resuming after each match's end; greedy
classes (`[0-9a-f]+`, `[^:]+`, `\s*`, `\d+`) take maximal runs, and since
each class is disjoint from the character that must follow it, the
backtracking regex accepts exactly the maximal-run decomposition. `\s`
and `\d` are the ASCII whitespace/digit sets (the inputs considered here
are ASCII).
-/

/-- The character class `[0-9a-f]` of the header regex (lowercase hex only). -/
def isHexDigit (c : Char) : Bool :=
  c.isDigit || decide (97 ≤ c.toNat ∧ c.toNat ≤ 102)

/-- The character class `\s` (ASCII whitespace). -/
def isWS (c : Char) : Bool :=
  decide (c = ' ' ∨ c = '\t' ∨ c = '\n' ∨ c = '\r' ∨ c = '\x0b' ∨ c = '\x0c')

/-- Numeric value of one hex digit (as used by `usize::from_str_radix(_, 16)`). -/
def hexDigitVal (c : Char) : Nat :=
  if c.isDigit then c.toNat - 48 else c.toNat - 87

/-- Base-16 accumulation over a digit string. -/
def hexFold (l : List Char) : Nat :=
  l.foldl (fun a c => a * 16 + hexDigitVal c) 0

/-- Base-10 accumulation over a digit string. -/
def decFold (l : List Char) : Nat :=
  l.foldl (fun a c => a * 10 + (c.toNat - 48)) 0

/-- `usize::from_str_radix(s, 16)` followed by `.unwrap()`: fails (panics) on an
empty string, a non-hex character, or overflow of the 64-bit `usize`. -/
def hexVal? (l : List Char) : Option Nat :=
  if l ≠ [] ∧ (∀ c ∈ l, isHexDigit c = true) ∧ hexFold l < 2 ^ 64 then
    some (hexFold l)
  else none

/-- `str::parse::<usize>()` followed by `.unwrap()`: fails (panics) on an empty
string, a non-digit character, or overflow of the 64-bit `usize`. -/
def decVal? (l : List Char) : Option Nat :=
  if l ≠ [] ∧ (∀ c ∈ l, c.isDigit = true) ∧ decFold l < 2 ^ 64 then
    some (decFold l)
  else none

/-- One attempted match of the header regex `([0-9a-f]+)-([0-9a-f]+)` at the
current position (the `^` anchoring is handled by the scanner): a maximal
nonempty run of hex digits, a hyphen, and a second maximal nonempty run of hex
digits. Returns the two capture groups. -/
def headerMatch (l : List Char) : Option (List Char × List Char) :=
  let g1 := l.takeWhile isHexDigit
  let r1 := l.dropWhile isHexDigit
  let g2 := (r1.drop 1).takeWhile isHexDigit
  if g1 ≠ [] ∧ r1.head? = some '-' ∧ g2 ≠ [] then some (g1, g2) else none

/-- One attempted match of the statistic regex `([^:]+):\s*(\d+) kB` at the
current position: a maximal nonempty colon-free run, a colon, a maximal
whitespace run, a maximal nonempty digit run, and the literal ` kB`.
Returns the two capture groups together with the match length. -/
def kvMatchAt (l : List Char) : Option ((List Char × List Char) × Nat) :=
  let g1 := l.takeWhile (· != ':')
  let r1 := l.dropWhile (· != ':')
  let r2 := r1.drop 1
  let ws := r2.takeWhile isWS
  let r3 := r2.dropWhile isWS
  let ds := r3.takeWhile Char.isDigit
  let r4 := r3.dropWhile Char.isDigit
  if g1 ≠ [] ∧ r1.head? = some ':' ∧ ds ≠ [] ∧ r4.take 3 = [' ', 'k', 'B'] then
    some ((g1, ds), g1.length + 1 + ws.length + ds.length + 3)
  else none

/-- The header matcher packaged with its match length, for the generic scanner. -/
def hdrM (l : List Char) : Option ((List Char × List Char) × Nat) :=
  (headerMatch l).map (fun g => (g, g.1.length + 1 + g.2.length))

/-- The multi-line scan loop shared by `find_iter` / `captures_iter` /
`captures`: at every line start (offset 0 or the position after a `'\n'`) try
the matcher; on success emit `(offset, captures)` and resume right after the
match (never a line start here, since both matchers end in a non-newline
character); otherwise advance one character. `fuel` is initialised with the
text length; every step consumes at least one character. -/
def scanAux {α : Type} (m : List Char → Option (α × Nat)) :
    Nat → Nat → List Char → Bool → List (Nat × α)
  | 0, _, _, _ => []
  | _ + 1, _, [], _ => []
  | fuel + 1, pos, c :: cs, false => scanAux m fuel (pos + 1) cs (c == '\n')
  | fuel + 1, pos, c :: cs, true =>
    match m (c :: cs) with
    | some (a, n) => (pos, a) :: scanAux m fuel (pos + n) ((c :: cs).drop n) false
    | none => scanAux m fuel (pos + 1) cs (c == '\n')

/-- `regex_start.find_iter(&smaps).map(|matched| matched.start())`. -/
def hdrStarts (text : List Char) : List Nat :=
  (scanAux hdrM text.length 0 text true).map (·.1)

/-- `regex_start.captures(chunk)`: the leftmost header match of the chunk. -/
def capturesFirst (chunk : List Char) : Option (List Char × List Char) :=
  ((scanAux hdrM chunk.length 0 chunk true).head?).map (·.2)

/-- `regex_kv.captures_iter(chunk)`: all statistic matches of the chunk,
as `(name, digits)` capture pairs in match order. -/
def kvScan (chunk : List Char) : List (List Char × List Char) :=
  (scanAux kvMatchAt chunk.length 0 chunk true).map (·.2)

/-- Lexicographic order on character lists by code point — the order
`Ord<String>` gives `BTreeMap<String, usize>` (UTF-8 byte order and scalar
order agree). -/
def charsLt : List Char → List Char → Bool
  | _, [] => false
  | [], _ :: _ => true
  | a :: as, b :: bs =>
    if a.toNat < b.toNat then true
    else if b.toNat < a.toNat then false
    else charsLt as bs

/-- `Ord::cmp` for `String`, restricted to "less than". -/
def strLt (a b : String) : Bool := charsLt a.data b.data

/-- `BTreeMap::insert` on the sorted association list modelling
`BTreeMap<String, usize>` (an insert with an equal key replaces the value). -/
def btreeInsert : List (String × Nat) → String → Nat → List (String × Nat)
  | [], k, v => [(k, v)]
  | (k', v') :: rest, k, v =>
    if strLt k k' then (k, v) :: (k', v') :: rest
    else if k == k' then (k, v) :: rest
    else (k', v') :: btreeInsert rest k v

/-- `.collect::<BTreeMap<String, usize>>()`: insert the pairs in iteration
order, so a later pair with an equal key overwrites an earlier one. -/
def btreeOfList (l : List (String × Nat)) : List (String × Nat) :=
  l.foldl (fun m kv => btreeInsert m kv.1 kv.2) []

/-- `BTreeMap::get` (by exact key). -/
def btreeGet (m : List (String × Nat)) (k : String) : Option Nat :=
  (m.find? (fun p => p.1 == k)).map (·.2)

/-- One parsed `(Range<usize>, BTreeMap<String, usize>)` entry of `Smaps`. -/
structure Region where
  start : Nat
  end' : Nat
  stats : List (String × Nat)
deriving DecidableEq

/-- The Rust `for` loop accumulating one `Option`-producing step per element:
any failure (panic) aborts the whole construction. -/
def optList {β γ : Type} (f : β → Option γ) : List β → Option (List γ)
  | [] => some []
  | x :: xs =>
    match f x, optList f xs with
    | some y, some ys => some (y :: ys)
    | _, _ => none

/-- The loop body of `Smaps::new` for one `boundaries.windows(2)` window
`[a, b]`: slice the chunk, re-capture the header on it, decode the two hex
numbers, and collect the statistic matches into the map. `none` models the
panics of the `unwrap`s inside the loop. -/
def parseWindow (text : List Char) (a b : Nat) : Option Region :=
  let chunk := (text.drop a).take (b - a)
  match capturesFirst chunk with
  | none => none
  | some g =>
    match hexVal? g.1, hexVal? g.2,
      optList (fun kv => (decVal? kv.2).map (fun v => (String.mk kv.1, v))) (kvScan chunk) with
    | some s, some e, some vals => some ⟨s, e, btreeOfList vals⟩
    | _, _, _ => none

/-- `Smaps::new`, as a function of the report text (the single
`std::fs::read_to_string("/proc/self/smaps")` is the external input): header
match offsets chained with the synthetic terminal boundary `smaps.len()`,
then one region per adjacent boundary pair. -/
def smapsNew (text : List Char) : Option (List Region) :=
  let boundaries := hdrStarts text ++ [text.length]
  optList (fun w => parseWindow text w.1 w.2) (boundaries.zip boundaries.tail)

/-- `Smaps::get_map`: the first (in parse order) region whose half-open range
contains `addr` (`addr >= range.start && addr < range.end`); `none` models the
`unwrap` panic when no region contains the address. -/
def get_map (s : List Region) (addr : Nat) : Option (List (String × Nat)) :=
  (s.find? (fun r => decide (r.start ≤ addr) && decide (addr < r.end'))).map (·.stats)

/-- `Smaps::get_rss`: `self.get_map(addr).get("Rss").cloned()`. The outer
`Option` is the `get_map` panic; the inner `Option` is the `BTreeMap::get`
result (`none` = the region has no `"Rss"` statistic). -/
def get_rss (s : List Region) (addr : Nat) : Option (Option Nat) :=
  (get_map s addr).map (fun m => btreeGet m "Rss")

/-- `instance_resident_bytes`: the instance's
`linear_memory_range().unwrap().start` (the range is supplied by the
`WasmInstance` collaborator, which lives outside this unit; only its start is
consumed), then `Smaps::new().get_rss(base_addr).expect("failed to get rss")`.
The result is returned as-is — the statistic's value in kilobytes. -/
def instance_resident_bytes (linearMemoryRange : Option (Nat × Nat))
    (smapsText : List Char) : Option Nat :=
  match linearMemoryRange with
  | none => none
  | some range =>
    match smapsNew smapsText with
    | none => none
    | some s =>
      match get_rss s range.1 with
      | none => none
      | some v => v

/-! ## Generic facts about `List.find?` (first-match semantics) -/

/-- `find?` returns the element at the first index satisfying the predicate. -/
theorem list_find?_eq_some_of_first {α : Type} (p : α → Bool) :
    ∀ (l : List α) (i : Nat) (hi : i < l.length),
      p (l.get ⟨i, hi⟩) = true →
      (∀ j (hj : j < l.length), j < i → p (l.get ⟨j, hj⟩) = false) →
      l.find? p = some (l.get ⟨i, hi⟩)
  | [], i, hi, _, _ => absurd hi (by simp)
  | a :: l, 0, _, hp, _ => by simp_all [List.find?]
  | a :: l, i + 1, hi, hp, hfirst => by
    have ha : p a = false := hfirst 0 (by simp) (Nat.succ_pos i)
    have hi' : i < l.length := Nat.lt_of_succ_lt_succ hi
    have := list_find?_eq_some_of_first p l i hi' hp
      (fun j hj hji => hfirst (j + 1) (by simpa using Nat.succ_lt_succ hj)
        (Nat.succ_lt_succ hji))
    simp [List.find?, ha]
    exact this

/-- The containment predicate of `Smaps::get_map`, as a proposition:
`addr >= r.start && addr < r.end`. -/
def containsAddr (r : Region) (addr : Nat) : Prop :=
  r.start ≤ addr ∧ addr < r.end'

theorem containsAddr_decide (r : Region) (addr : Nat) :
    (decide (r.start ≤ addr) && decide (addr < r.end')) = true ↔ containsAddr r addr := by
  simp [containsAddr]

/-- C3: `Smaps::get_map` returns the stat map of the first region in parse
order whose half-open interval `[start, end)` contains the address; an address
equal to a region's `end'` is never contained in it; and when no region
contains the address the query fails (`none`, the `unwrap` panic) instead of
returning any default. -/
theorem get_map_first_halfopen (s : List Region) (addr : Nat) :
    (get_map s addr = none ↔ ∀ r ∈ s, ¬ containsAddr r addr) ∧
    (∀ i (hi : i < s.length), containsAddr (s.get ⟨i, hi⟩) addr →
      (∀ j (hj : j < s.length), j < i → ¬ containsAddr (s.get ⟨j, hj⟩) addr) →
      get_map s addr = some (s.get ⟨i, hi⟩).stats) ∧
    (∀ r ∈ s, addr = r.end' → ¬ containsAddr r addr) := by
  refine ⟨?_, ?_, ?_⟩
  · simp only [get_map, Option.map_eq_none', List.find?_eq_none]
    constructor
    · intro h r hr hc
      exact absurd ((containsAddr_decide r addr).mpr hc) (by simpa using h r hr)
    · intro h r hr
      simpa using fun hc => h r hr ((containsAddr_decide r addr).mp hc)
  · intro i hi hc hfirst
    have := list_find?_eq_some_of_first
      (fun r => decide (r.start ≤ addr) && decide (addr < r.end')) s i hi
      ((containsAddr_decide _ addr).mpr hc)
      (fun j hj hji => by
        have := hfirst j hj hji
        rcases h : (decide ((s.get ⟨j, hj⟩).start ≤ addr) &&
          decide (addr < (s.get ⟨j, hj⟩).end')) with _ | _
        · simpa using h
        · exact absurd ((containsAddr_decide _ addr).mp h) this)
    simp [get_map, this]
  · rintro r _ rfl ⟨_, hlt⟩
    exact absurd hlt (lt_irrefl _)

/-- C3 witness: a concrete two-region report queried inside the second region. -/
theorem get_map_first_halfopen_witness :
    get_map [⟨0, 4, [("Rss", 1)]⟩, ⟨4, 8, [("Rss", 2)]⟩] 4 = some [("Rss", 2)] := by
  have h := (get_map_first_halfopen [⟨0, 4, [("Rss", 1)]⟩, ⟨4, 8, [("Rss", 2)]⟩] 4).2.1
    1 (by decide) (by constructor <;> decide)
    (fun j hj hji => by
      have hj0 : j = 0 := by omega
      subst hj0
      exact fun hc => by
        have h4 : (4 : Nat) < 4 := hc.2
        omega)
  simpa using h

/-- C10: when several regions' intervals overlap and the queried address lies
in the overlap, `get_map` (and hence `get_rss`) deterministically uses the
earliest containing region in parse order. -/
theorem overlap_first_match_wins (s : List Region) (addr : Nat) (i j : Nat)
    (hi : i < s.length) (hj : j < s.length) (hij : i < j)
    (hci : containsAddr (s.get ⟨i, hi⟩) addr)
    (hcj : containsAddr (s.get ⟨j, hj⟩) addr)
    (hfirst : ∀ k (hk : k < s.length), k < i → ¬ containsAddr (s.get ⟨k, hk⟩) addr) :
    get_map s addr = some (s.get ⟨i, hi⟩).stats ∧
    get_rss s addr = some (btreeGet (s.get ⟨i, hi⟩).stats "Rss") := by
  have hmap : get_map s addr = some (s.get ⟨i, hi⟩).stats := by
    have := list_find?_eq_some_of_first
      (fun r => decide (r.start ≤ addr) && decide (addr < r.end')) s i hi
      ((containsAddr_decide _ addr).mpr hci)
      (fun k hk hki => by
        have := hfirst k hk hki
        rcases h : (decide ((s.get ⟨k, hk⟩).start ≤ addr) &&
          decide (addr < (s.get ⟨k, hk⟩).end')) with _ | _
        · simpa using h
        · exact absurd ((containsAddr_decide _ addr).mp h) this)
    simp [get_map, this]
  exact ⟨hmap, by simp [get_rss, hmap]⟩

/-- C10 witness: two overlapping regions, address in the overlap; the first
one's map wins. -/
theorem overlap_first_match_wins_witness :
    get_map [⟨0, 10, [("Rss", 1)]⟩, ⟨5, 15, [("Rss", 2)]⟩] 7 = some [("Rss", 1)] ∧
    get_rss [⟨0, 10, [("Rss", 1)]⟩, ⟨5, 15, [("Rss", 2)]⟩] 7 = some (some 1) := by
  have h := overlap_first_match_wins [⟨0, 10, [("Rss", 1)]⟩, ⟨5, 15, [("Rss", 2)]⟩] 7
    0 1 (by decide) (by decide) (by decide)
    (by constructor <;> decide) (by constructor <;> decide)
    (fun k hk hk0 => absurd hk0 (Nat.not_lt_zero k))
  refine ⟨by simpa using h.1, ?_⟩
  have h2 := h.2
  simp at h2 ⊢
  simp [h2]
  decide

/-! ## `BTreeMap` model: insert/get interaction -/

theorem btreeGet_insert_self (m : List (String × Nat)) (k : String) (v : Nat) :
    btreeGet (btreeInsert m k v) k = some v := by
  induction m with
  | nil => simp [btreeInsert, btreeGet, List.find?]
  | cons p rest ih =>
    obtain ⟨k', v'⟩ := p
    rcases hlt : strLt k k' with _ | _
    · rcases heq : (k == k') with _ | _
      · have hne : (k' == k) = false := by
          simp only [beq_eq_false_iff_ne] at heq ⊢
          exact fun h => heq h.symm
        simp only [btreeInsert, hlt, heq, Bool.false_eq_true, if_false]
        simpa [btreeGet, List.find?, hne] using ih
      · simp [btreeInsert, hlt, heq, btreeGet, List.find?]
    · simp [btreeInsert, hlt, btreeGet, List.find?]

theorem btreeGet_insert_ne (m : List (String × Nat)) (k0 : String) (v0 : Nat)
    (k : String) (h : k0 ≠ k) :
    btreeGet (btreeInsert m k0 v0) k = btreeGet m k := by
  have hk0 : (k0 == k) = false := by simpa only [beq_eq_false_iff_ne] using h
  induction m with
  | nil => simp [btreeInsert, btreeGet, List.find?, hk0]
  | cons p rest ih =>
    obtain ⟨k', v'⟩ := p
    rcases hlt : strLt k0 k' with _ | _
    · rcases heq : (k0 == k') with _ | _
      · rcases hk' : (k' == k) with _ | _
        · simp only [btreeInsert, hlt, heq, Bool.false_eq_true, if_false]
          simpa [btreeGet, List.find?, hk'] using ih
        · simp [btreeInsert, hlt, heq, btreeGet, List.find?, hk']
      · have hkeq : k0 = k' := eq_of_beq heq
        have hk' : (k' == k) = false := by
          simpa only [beq_eq_false_iff_ne, ← hkeq] using h
        simp [btreeInsert, hlt, heq, btreeGet, List.find?, hk0, hk']
    · simp [btreeInsert, hlt, btreeGet, List.find?, hk0]

theorem btreeGet_foldl_of_get (k : String) (v : Nat) :
    ∀ (l : List (String × Nat)) (m : List (String × Nat)),
      (∀ p ∈ l, p.1 ≠ k) → btreeGet m k = some v →
      btreeGet (l.foldl (fun m kv => btreeInsert m kv.1 kv.2) m) k = some v
  | [], m, _, hm => hm
  | p :: l, m, hl, hm => by
    have hp : p.1 ≠ k := hl p (by simp)
    have : btreeGet (btreeInsert m p.1 p.2) k = some v := by
      rw [btreeGet_insert_ne m p.1 p.2 k hp]; exact hm
    simpa using btreeGet_foldl_of_get k v l (btreeInsert m p.1 p.2)
      (fun q hq => hl q (by simp [hq])) this

/-- C6: collected into the `BTreeMap`, a statistic name that occurs several
times among a block's matched `(name, value)` pairs is bound to the value of
its last occurrence (later `insert`s overwrite earlier ones). -/
theorem statmap_last_write_wins (l₁ l₂ : List (String × Nat)) (k : String) (v : Nat)
    (hdup : ∃ p ∈ l₁, p.1 = k) (hlast : ∀ p ∈ l₂, p.1 ≠ k) :
    btreeGet (btreeOfList (l₁ ++ (k, v) :: l₂)) k = some v := by
  unfold btreeOfList
  rw [List.foldl_append]
  simp only [List.foldl_cons]
  exact btreeGet_foldl_of_get k v l₂ _ hlast (btreeGet_insert_self _ k v)

/-- C6 witness: `Rss` appears twice; the later value 7 wins. -/
theorem statmap_last_write_wins_witness :
    btreeGet (btreeOfList ([("Rss", 1)] ++ ("Rss", 7) :: [("Pss", 2)])) "Rss" = some 7 :=
  statmap_last_write_wins [("Rss", 1)] [("Pss", 2)] "Rss" 7
    ⟨("Rss", 1), by simp⟩ (by decide)

/-! ## Closed evaluations of the parser -/

/-- C8: the empty report text parses without failure to zero regions. -/
theorem empty_text_parses_empty : smapsNew [] = some [] := by decide

/-- The end-to-end report text of the specification's §8 scenario. -/
def exampleReport : List Char :=
  ("00400000-00401000 r-xp 00000000 00:00 0\nRss:                  4 kB\n" ++
   "Pss:                  4 kB\n00600000-00601000 rw-p 00000000 00:00 0\n" ++
   "Rss:                  8 kB\n").toList

set_option maxRecDepth 100000 in
/-- C1 (code bug): on the specification's own example, with the memory
object's base address `0x00400500` inside the first region (whose `Rss` is
4 kB), the facade returns the raw kilobyte count `4`, not `4 * 1024` bytes —
`instance_resident_bytes` never multiplies by 1024, although its own doc
comment promises bytes. -/
theorem facade_returns_kilobytes_not_bytes :
    instance_resident_bytes (some (0x00400500, 0x00401000)) exampleReport = some 4 ∧
    some 4 ≠ some ((4 : Nat) * 1024) := by
  constructor
  · decide
  · decide

/-- C2 counterexample: `"hello"` is non-empty and contains no header-line
match, yet parsing does not fail — it succeeds with an empty region sequence
(`boundaries` collapses to the single synthetic terminal, and
`windows(2)` yields nothing). -/
theorem headerless_text_parses_empty_cex :
    "hello".toList ≠ [] ∧ hdrStarts "hello".toList = [] ∧
    smapsNew "hello".toList = some [] := by decide

/-- C2 amended: for every non-empty text with no header-line match, parsing
succeeds and returns the empty region sequence (no `MalformedReport`-style
failure exists in the code). -/
theorem headerless_text_parses_empty (text : List Char) (_hne : text ≠ [])
    (hnohdr : hdrStarts text = []) : smapsNew text = some [] := by
  simp only [smapsNew, hnohdr, List.nil_append, List.tail_cons, List.zip_nil_right]
  rfl

/-- C2 amended witness. -/
theorem headerless_text_parses_empty_witness :
    ("zzz".toList ≠ [] ∧ hdrStarts "zzz".toList = []) ∧
    smapsNew "zzz".toList = some [] :=
  ⟨by decide, headerless_text_parses_empty "zzz".toList (by decide) (by decide)⟩

/-- C9 counterexample: the parser never compares the two decoded addresses.
The header `ff-01` yields a record with `start = 255 > 1 = end'`, and the
mid-report header `00-00` yields `start = end'` on a region that is neither
empty of statistics nor the terminal block — both clauses of the claimed
invariant fail. -/
theorem start_le_end_cex :
    smapsNew "ff-01\n00-00 d:d\nRss: 2 kB\n10-20\n".toList =
      some [⟨255, 1, []⟩, ⟨0, 0, [("Rss", 2)]⟩, ⟨16, 32, []⟩] ∧
    ¬ (255 : Nat) ≤ 1 := by
  constructor
  · decide
  · decide

/-- C5 counterexample: a statistic line ` Rss : 4 kB` stores the key
`" Rss "` verbatim — the `([^:]+)` capture is used as the map key without any
trimming, so the claimed trimmed key `"Rss"` is absent. -/
theorem stat_key_untrimmed_cex :
    smapsNew "0a-ff x:x\n Rss : 4 kB\n".toList = some [⟨10, 255, [(" Rss ", 4)]⟩] ∧
    btreeGet [(" Rss ", 4)] " Rss " = some 4 ∧
    btreeGet [(" Rss ", 4)] "Rss" = none := by
  refine ⟨by decide, by decide, by decide⟩

/-! ## Scanner stepping and fuel lemmas -/

theorem scanAux_nil {α : Type} (m : List Char → Option (α × Nat)) (f p : Nat) (b : Bool) :
    scanAux m f p [] b = [] := by
  cases f <;> rfl

theorem scanAux_step_off {α : Type} (m : List Char → Option (α × Nat)) (f p : Nat)
    (c : Char) (cs : List Char) :
    scanAux m (f + 1) p (c :: cs) false = scanAux m f (p + 1) cs (c == '\n') := rfl

theorem scanAux_newline {α : Type} (m : List Char → Option (α × Nat)) (f p : Nat)
    (cs : List Char) :
    scanAux m (f + 1) p ('\n' :: cs) false = scanAux m f (p + 1) cs true := rfl

theorem scanAux_nomatch {α : Type} (m : List Char → Option (α × Nat)) (f p : Nat)
    (c : Char) (cs : List Char) (h : m (c :: cs) = none) :
    scanAux m (f + 1) p (c :: cs) true = scanAux m f (p + 1) cs (c == '\n') := by
  simp [scanAux, h]

theorem scanAux_match {α : Type} (m : List Char → Option (α × Nat)) (f p : Nat)
    (c : Char) (cs : List Char) (a : α) (n : Nat) (h : m (c :: cs) = some (a, n)) :
    scanAux m (f + 1) p (c :: cs) true =
      (p, a) :: scanAux m f (p + n) ((c :: cs).drop n) false := by
  simp [scanAux, h]

/-- The scanner's result does not depend on the fuel, as long as the fuel covers
the text length (each step consumes at least one character when the matcher
always reports a positive match length). -/
theorem scanAux_fuel {α : Type} (m : List Char → Option (α × Nat))
    (hm : ∀ l a n, m l = some (a, n) → 1 ≤ n) :
    ∀ (f₁ f₂ p : Nat) (l : List Char) (b : Bool), l.length ≤ f₁ → l.length ≤ f₂ →
      scanAux m f₁ p l b = scanAux m f₂ p l b
  | 0, f₂, p, l, b, h₁, _ => by
    have hl : l = [] := List.length_eq_zero.mp (Nat.le_zero.mp h₁)
    subst hl
    rw [scanAux_nil, scanAux_nil]
  | f₁ + 1, f₂, p, [], b, _, _ => by rw [scanAux_nil, scanAux_nil]
  | f₁ + 1, 0, p, c :: cs, b, _, h₂ => by simp at h₂
  | f₁ + 1, f₂ + 1, p, c :: cs, b, h₁, h₂ => by
    have hcs : cs.length ≤ f₁ := by simpa using h₁
    have hcs₂ : cs.length ≤ f₂ := by simpa using h₂
    cases b with
    | false =>
      rw [scanAux_step_off, scanAux_step_off]
      exact scanAux_fuel m hm f₁ f₂ (p + 1) cs _ hcs hcs₂
    | true =>
      cases hmc : m (c :: cs) with
      | none =>
        rw [scanAux_nomatch _ _ _ _ _ hmc, scanAux_nomatch _ _ _ _ _ hmc]
        exact scanAux_fuel m hm f₁ f₂ (p + 1) cs _ hcs hcs₂
      | some an =>
        obtain ⟨a, n⟩ := an
        rw [scanAux_match _ _ _ _ _ _ _ hmc, scanAux_match _ _ _ _ _ _ _ hmc]
        have hn := hm _ _ _ hmc
        have hlen : ((c :: cs).drop n).length ≤ f₁ := by
          simp only [List.length_drop, List.length_cons]
          omega
        have hlen₂ : ((c :: cs).drop n).length ≤ f₂ := by
          simp only [List.length_drop, List.length_cons]
          omega
        rw [scanAux_fuel m hm f₁ f₂ (p + n) _ false hlen hlen₂]

/-- Scanning a newline-free segment away from a line start emits nothing and
passes through, consuming exactly its length in fuel. -/
theorem scanAux_skip {α : Type} (m : List Char → Option (α × Nat)) :
    ∀ (s : List Char) (f p : Nat) (r : List Char), (∀ c ∈ s, ¬ c = '\n') →
      scanAux m (s.length + f) p (s ++ r) false = scanAux m f (p + s.length) r false
  | [], f, p, r, _ => by simp
  | c :: s, f, p, r, h => by
    have hc : (c == '\n') = false := by
      simpa using h c (by simp)
    have hl : (c :: s).length + f = (s.length + f) + 1 := by
      simp only [List.length_cons]
      omega
    rw [hl, List.cons_append, scanAux_step_off, hc,
      scanAux_skip m s f (p + 1) r (fun x hx => h x (by simp [hx]))]
    have hp : p + 1 + s.length = p + (c :: s).length := by
      simp only [List.length_cons]
      omega
    rw [hp]

/-- Scanning a whole line (newline-free, nonempty, not matching at its start)
from its line start emits nothing and moves to the start of the next line. -/
theorem scanAux_skip_line {α : Type} (m : List Char → Option (α × Nat))
    (hm : ∀ l a n, m l = some (a, n) → 1 ≤ n)
    (ln r : List Char) (hln : ln ≠ []) (hnl : ∀ c ∈ ln, ¬ c = '\n')
    (hmatch : m (ln ++ '\n' :: r) = none) (f p : Nat)
    (hf : (ln ++ '\n' :: r).length ≤ f) :
    scanAux m f p (ln ++ '\n' :: r) true = scanAux m r.length (p + ln.length + 1) r true := by
  obtain ⟨c, ln', rfl⟩ : ∃ c ln', ln = c :: ln' := by
    cases ln with
    | nil => exact absurd rfl hln
    | cons c ln' => exact ⟨c, ln', rfl⟩
  have hexact : (c :: ln' ++ '\n' :: r).length = (ln'.length + (r.length + 1)) + 1 := by
    simp only [List.length_cons, List.length_append]
    omega
  rw [scanAux_fuel m hm f ((ln'.length + (r.length + 1)) + 1) p _ true hf (by omega)]
  have hc : (c == '\n') = false := by
    simpa using hnl c (by simp)
  rw [List.cons_append, scanAux_nomatch _ _ _ _ _ (by simpa using hmatch), hc,
    scanAux_skip m ln' (r.length + 1) (p + 1) ('\n' :: r)
      (fun x hx => hnl x (by simp [hx])),
    scanAux_newline]
  have hp : p + 1 + ln'.length + 1 = p + (c :: ln').length + 1 := by
    simp only [List.length_cons]
    omega
  rw [hp]

/-! ## `takeWhile` / `dropWhile` across appends -/

theorem takeWhile_append_all (p : Char → Bool) :
    ∀ (a r : List Char), (∀ c ∈ a, p c = true) → (∀ c, r.head? = some c → p c = false) →
      (a ++ r).takeWhile p = a ∧ (a ++ r).dropWhile p = r
  | [], r, _, hr => by
    cases r with
    | nil => exact ⟨rfl, rfl⟩
    | cons x r' =>
      have hx : p x = false := hr x rfl
      simp [List.takeWhile_cons, List.dropWhile_cons, hx]
  | c :: a, r, ha, hr => by
    have hc : p c = true := ha c (by simp)
    have ih := takeWhile_append_all p a r (fun x hx => ha x (by simp [hx])) hr
    simp [List.takeWhile_cons, List.dropWhile_cons, hc, ih.1, ih.2]

theorem takeWhile_append_stop (p : Char → Bool) :
    ∀ (a r : List Char), a.all p = false →
      (a ++ r).takeWhile p = a.takeWhile p ∧ (a ++ r).dropWhile p = a.dropWhile p ++ r
  | [], _, h => by simp at h
  | c :: a, r, h => by
    rcases hc : p c with _ | _
    · simp [List.takeWhile_cons, List.dropWhile_cons, hc]
    · have ha : a.all p = false := by simpa [List.all_cons, hc] using h
      have ih := takeWhile_append_stop p a r ha
      simp [List.takeWhile_cons, List.dropWhile_cons, hc, ih.1, ih.2]

/-! ## Constructing and blocking matches of the two regexes -/

/-- A well-formed header prefix `h1-h2` (maximal nonempty hex runs, the next
character not hex) matches the header regex with exactly these captures,
whatever follows. -/
theorem headerMatch_build (h1 h2 r : List Char) (hh1 : h1 ≠ [])
    (ha1 : ∀ c ∈ h1, isHexDigit c = true) (hh2 : h2 ≠ [])
    (ha2 : ∀ c ∈ h2, isHexDigit c = true)
    (hr : ∀ c, r.head? = some c → isHexDigit c = false) :
    headerMatch (h1 ++ '-' :: h2 ++ r) = some (h1, h2) := by
  have e1 := takeWhile_append_all isHexDigit h1 ('-' :: (h2 ++ r)) ha1
    (fun c hc => by
      have : c = '-' := by simpa using hc.symm
      subst this
      decide)
  have e2 := takeWhile_append_all isHexDigit h2 r ha2 hr
  have hassoc : h1 ++ '-' :: h2 ++ r = h1 ++ '-' :: (h2 ++ r) := by simp
  rw [hassoc]
  simp only [headerMatch, e1.1, e1.2, List.head?_cons, List.drop_one, List.tail_cons, e2.1]
  simp [hh1, hh2]

/-- A failed header match at the start of `name ++ ":"` stays failed when more
text follows the colon (the scan for each capture group stops at a non-hex
character inside `name ++ ":"`). -/
theorem headerMatch_none_extend (name : List Char)
    (hnone : headerMatch (name ++ [':']) = none) (r : List Char) :
    headerMatch (name ++ ':' :: r) = none := by
  have hcolon : isHexDigit ':' = false := by decide
  have hmem : (name ++ [':']).all isHexDigit = false := by
    rcases h : (name ++ [':']).all isHexDigit with _ | _
    · rfl
    · rw [List.all_eq_true] at h
      exact absurd (h ':' (by simp)) (by decide)
  have hsplit : name ++ ':' :: r = (name ++ [':']) ++ r := by simp
  have hstop := takeWhile_append_stop isHexDigit (name ++ [':']) r hmem
  rw [hsplit]
  rcases hg1 : (name ++ [':']).takeWhile isHexDigit with _ | ⟨x, g1'⟩
  · simp only [headerMatch, hstop.1, hg1]
    simp
  · -- the first capture is nonempty; inspect the rest after the hex run
    rcases hd : (name ++ [':']).dropWhile isHexDigit with _ | ⟨d, D2⟩
    · -- impossible: the list contains ':' which is not hex
      have : (name ++ [':']).all isHexDigit = true := by
        have := List.takeWhile_append_dropWhile (p := isHexDigit) (l := name ++ [':'])
        rw [hd, List.append_nil] at this
        rw [← this] at hmem ⊢
        rw [List.all_eq_true]
        intro x hx
        exact List.mem_takeWhile_imp hx
      rw [this] at hmem
      exact absurd hmem (by simp)
    · by_cases hdd : d = '-'
      · subst hdd
        -- D2 is nonempty: the list ends in ':' yet the hex-run drop ends in '-'
        rcases hD2 : D2 with _ | ⟨y, D3⟩
        · exfalso
          have hall := List.takeWhile_append_dropWhile (p := isHexDigit) (l := name ++ [':'])
          rw [hd, hD2] at hall
          have : ':' ∈ (name ++ [':']).takeWhile isHexDigit ++ ['-'] := by
            rw [hall]
            simp
          rcases List.mem_append.mp this with hmem' | hmem'
          · exact absurd (List.mem_takeWhile_imp hmem') (by decide)
          · simp at hmem'
        · -- the second capture was empty for `name ++ [':']`, so D2's head is not hex
          have hg2 : D2.takeWhile isHexDigit = [] := by
            by_contra hne
            simp only [headerMatch, hd, hg1] at hnone
            simp [List.drop_one, hne] at hnone
          have hyhex : isHexDigit y = false := by
            rw [hD2] at hg2
            rcases hy : isHexDigit y with _ | _
            · rfl
            · simp [List.takeWhile_cons, hy] at hg2
          have hD2stop : (D2 ++ r).takeWhile isHexDigit = [] := by
            rw [hD2, List.cons_append, List.takeWhile_cons, hyhex]
            simp
          simp only [headerMatch, hstop.1, hstop.2, hd, hg1, hD2]
          simp only [List.cons_append, List.head?_cons, List.drop_one, List.tail_cons]
          rw [← List.cons_append, ← hD2, hD2stop]
          simp
      · simp only [headerMatch, hstop.1, hstop.2, hd]
        simp [hdd]

theorem digit_not_ws (c : Char) (h : c.isDigit = true) : isWS c = false := by
  rcases hw : isWS c with _ | _
  · rfl
  · exfalso
    rw [isWS, decide_eq_true_iff] at hw
    rcases hw with rfl | rfl | rfl | rfl | rfl | rfl <;> simp_all

theorem digit_ne_newline (c : Char) (h : c.isDigit = true) : ¬ c = '\n' := by
  rintro rfl
  simp at h

theorem hex_ne_newline (c : Char) (h : isHexDigit c = true) : ¬ c = '\n' := by
  rintro rfl
  simp [isHexDigit] at h

/-- A well-formed statistic line `name:` + whitespace + digits + ` kB` matches
the statistic regex with the untrimmed `name` and the digit run as captures,
whatever follows the `B`. -/
theorem kvMatchAt_build (name ws ds tl : List Char)
    (hname : name ≠ []) (hnc : ∀ c ∈ name, ¬ c = ':')
    (hws : ∀ c ∈ ws, isWS c = true)
    (hds : ds ≠ []) (hdig : ∀ c ∈ ds, c.isDigit = true) :
    kvMatchAt (name ++ ':' :: (ws ++ (ds ++ ' ' :: 'k' :: 'B' :: tl))) =
      some ((name, ds), name.length + 1 + ws.length + ds.length + 3) := by
  have e1 := takeWhile_append_all (· != ':') name (':' :: (ws ++ (ds ++ ' ' :: 'k' :: 'B' :: tl)))
    (fun c hc => by simpa using hnc c hc)
    (fun c hc => by
      have : c = ':' := by simpa using hc.symm
      subst this
      decide)
  have e2 := takeWhile_append_all isWS ws (ds ++ ' ' :: 'k' :: 'B' :: tl) hws
    (fun c hc => by
      obtain ⟨d, ds', rfl⟩ : ∃ d ds', ds = d :: ds' := by
        cases ds with
        | nil => exact absurd rfl hds
        | cons d ds' => exact ⟨d, ds', rfl⟩
      have : c = d := by simpa using hc.symm
      subst this
      exact digit_not_ws c (hdig c (by simp)))
  have e3 := takeWhile_append_all Char.isDigit ds (' ' :: 'k' :: 'B' :: tl) hdig
    (fun c hc => by
      have : c = ' ' := by simpa using hc.symm
      subst this
      decide)
  simp only [kvMatchAt, e1.1, e1.2, List.head?_cons, List.drop_one, List.tail_cons,
    e2.1, e2.2, e3.1, e3.2]
  simp [hname, hds]

theorem kvMatchAt_pos (l : List Char) (a : List Char × List Char) (n : Nat)
    (h : kvMatchAt l = some (a, n)) : 1 ≤ n := by
  unfold kvMatchAt at h
  dsimp only at h
  split_ifs at h with hc
  simp only [Option.some.injEq, Prod.mk.injEq] at h
  omega

theorem hdrM_pos (l : List Char) (a : List Char × List Char) (n : Nat)
    (h : hdrM l = some (a, n)) : 1 ≤ n := by
  unfold hdrM at h
  cases hh : headerMatch l with
  | none => rw [hh] at h; exact absurd h (by simp)
  | some g =>
    rw [hh] at h
    simp only [Option.map_some', Option.some.injEq, Prod.mk.injEq] at h
    omega

theorem hdrM_none (l : List Char) (h : headerMatch l = none) : hdrM l = none := by
  simp [hdrM, h]

theorem hdrM_some (l : List Char) (g : List Char × List Char)
    (h : headerMatch l = some g) :
    hdrM l = some (g, g.1.length + 1 + g.2.length) := by
  simp [hdrM, h]

theorem scanAux_match' {α : Type} (m : List Char → Option (α × Nat)) (f p : Nat)
    (l : List Char) (hl : l ≠ []) (a : α) (n : Nat) (h : m l = some (a, n)) :
    scanAux m (f + 1) p l true = (p, a) :: scanAux m f (p + n) (l.drop n) false := by
  obtain ⟨c, cs, rfl⟩ : ∃ c cs, l = c :: cs := by
    cases l with
    | nil => exact absurd rfl hl
    | cons c cs => exact ⟨c, cs, rfl⟩
  exact scanAux_match m f p c cs a n h

/-! ## Synthetic well-formed reports -/

/-- One synthetic statistic line: `name` (untrimmed key text) and a decimal
digit string. -/
structure SynStat where
  name : List Char
  digits : List Char
deriving DecidableEq

/-- One synthetic region block: the two hex address strings of the header, the
remainder of the header line, and the statistic lines. -/
structure SynBlock where
  h1 : List Char
  h2 : List Char
  tail : List Char
  stats : List SynStat
deriving DecidableEq

/-- A statistic line without its final newline: `name: <digits> kB`. -/
def statBody (s : SynStat) : List Char :=
  s.name ++ ':' :: ' ' :: s.digits ++ [' ', 'k', 'B']

def renderStat (s : SynStat) : List Char := statBody s ++ ['\n']

def statText (b : SynBlock) : List Char := (b.stats.map renderStat).join

/-- The header line without its final newline: `h1-h2<tail>`. -/
def headerLine (b : SynBlock) : List Char := b.h1 ++ '-' :: b.h2 ++ b.tail

def renderBlock (b : SynBlock) : List Char := headerLine b ++ '\n' :: statText b

def renderReport (bs : List SynBlock) : List Char := (bs.map renderBlock).join

/-- The `(key, value)` pairs a block's statistic lines decode to. -/
def expectedStats (b : SynBlock) : List (String × Nat) :=
  b.stats.map (fun s => (String.mk s.name, decFold s.digits))

/-- The region record a well-formed block must parse to. -/
def expectedRegion (b : SynBlock) : Region :=
  ⟨hexFold b.h1, hexFold b.h2, btreeOfList (expectedStats b)⟩

/-- Well-formedness of a synthetic statistic line: nonempty colon- and
newline-free name that does not start a header match, nonempty digit string
whose value fits in `usize`. -/
def wfStat (s : SynStat) : Prop :=
  s.name ≠ [] ∧ (∀ c ∈ s.name, ¬ c = ':' ∧ ¬ c = '\n') ∧
  headerMatch (s.name ++ [':']) = none ∧
  s.digits ≠ [] ∧ (∀ c ∈ s.digits, c.isDigit = true) ∧ decFold s.digits < 2 ^ 64

/-- Well-formedness of a synthetic block: nonempty lowercase-hex address
strings whose values fit in `usize`, a newline-free header-line tail that does
not extend the second hex run, a header line at which the statistic regex does
not match (true of real report headers, whose device field `00:00` is followed
by the inode, not by `<digits> kB`), and well-formed statistic lines. -/
def wfBlock (b : SynBlock) : Prop :=
  b.h1 ≠ [] ∧ (∀ c ∈ b.h1, isHexDigit c = true) ∧ hexFold b.h1 < 2 ^ 64 ∧
  b.h2 ≠ [] ∧ (∀ c ∈ b.h2, isHexDigit c = true) ∧ hexFold b.h2 < 2 ^ 64 ∧
  (∀ c ∈ b.tail, ¬ c = '\n') ∧ (∀ c, b.tail.head? = some c → isHexDigit c = false) ∧
  kvMatchAt (renderBlock b) = none ∧
  (∀ s ∈ b.stats, wfStat s)

instance instDecidableWfStat (s : SynStat) : Decidable (wfStat s) := by
  unfold wfStat
  infer_instance

instance instDecidableWfBlock (b : SynBlock) : Decidable (wfBlock b) := by
  unfold wfBlock
  infer_instance

/-- The byte offsets at which the successive blocks of a report start. -/
def offsetsFrom (p : Nat) : List SynBlock → List Nat
  | [] => []
  | b :: bs => p :: offsetsFrom (p + (renderBlock b).length) bs

theorem statBody_ne_nil (s : SynStat) : statBody s ≠ [] := by
  unfold statBody
  cases s.name <;> simp

theorem statBody_no_newline (s : SynStat) (hs : wfStat s) :
    ∀ c ∈ statBody s, ¬ c = '\n' := by
  intro c hc
  unfold statBody at hc
  rcases List.mem_append.mp hc with h | h
  · rcases List.mem_append.mp h with h1 | h1
    · exact (hs.2.1 c h1).2
    · simp only [List.mem_cons] at h1
      rcases h1 with rfl | rfl | h1
      · decide
      · decide
      · exact digit_ne_newline c (hs.2.2.2.2.1 c h1)
  · simp only [List.mem_cons] at h
    rcases h with rfl | rfl | rfl | h
    · decide
    · decide
    · decide
    · simp at h

theorem renderStat_split (s : SynStat) (X : List Char) :
    renderStat s ++ X = statBody s ++ '\n' :: X := by
  simp [renderStat]

/-- The header regex does not match at a well-formed statistic line's start. -/
theorem headerMatch_statLine (s : SynStat) (hs : wfStat s) (X : List Char) :
    headerMatch (renderStat s ++ X) = none := by
  have hform : renderStat s ++ X =
      s.name ++ ':' :: (' ' :: (s.digits ++ (' ' :: 'k' :: 'B' :: ('\n' :: X)))) := by
    simp [renderStat, statBody]
  rw [hform]
  exact headerMatch_none_extend s.name hs.2.2.1 _

/-- Scanning the statistic lines of a block emits no header matches. -/
theorem hdrScan_stats : ∀ (stats : List SynStat), (∀ s ∈ stats, wfStat s) →
    ∀ (rest : List Char) (f p : Nat),
      ((stats.map renderStat).join ++ rest).length ≤ f →
      scanAux hdrM f p ((stats.map renderStat).join ++ rest) true =
        scanAux hdrM rest.length (p + ((stats.map renderStat).join).length) rest true
  | [], _, rest, f, p, hf => by
    simp only [List.map_nil, List.join_nil, List.nil_append, List.length_nil,
      Nat.add_zero] at hf ⊢
    exact scanAux_fuel hdrM hdrM_pos f rest.length p rest true hf le_rfl
  | s :: stats, hwf, rest, f, p, hf => by
    have hs := hwf s (by simp)
    have hwf' : ∀ x ∈ stats, wfStat x := fun x hx => hwf x (by simp [hx])
    have hjoin : ((s :: stats).map renderStat).join ++ rest
        = statBody s ++ '\n' :: ((stats.map renderStat).join ++ rest) := by
      simp [renderStat]
    have hmatch : hdrM (statBody s ++ '\n' :: ((stats.map renderStat).join ++ rest)) = none := by
      have h0 := headerMatch_statLine s hs ((stats.map renderStat).join ++ rest)
      rw [renderStat_split] at h0
      exact hdrM_none _ h0
    have hflen : (statBody s ++ '\n' :: ((stats.map renderStat).join ++ rest)).length ≤ f := by
      rw [← hjoin]; exact hf
    rw [hjoin, scanAux_skip_line hdrM hdrM_pos (statBody s) _ (statBody_ne_nil s)
      (statBody_no_newline s hs) hmatch f p hflen,
      hdrScan_stats stats hwf' rest ((stats.map renderStat).join ++ rest).length
        (p + (statBody s).length + 1) le_rfl]
    have hp : p + (statBody s).length + 1 + ((stats.map renderStat).join).length
        = p + (((s :: stats).map renderStat).join).length := by
      simp [renderStat]
      omega
    rw [hp]

theorem renderBlock_expand (b : SynBlock) (rest : List Char) :
    renderBlock b ++ rest
      = b.h1 ++ '-' :: b.h2 ++ (b.tail ++ '\n' :: (statText b ++ rest)) := by
  simp [renderBlock, headerLine]

theorem renderBlock_length (b : SynBlock) :
    (renderBlock b).length
      = b.h1.length + 1 + b.h2.length + b.tail.length + 1 + (statText b).length := by
  simp [renderBlock, headerLine]
  omega

/-- Scanning a well-formed block emits exactly one header match, at the
block's start and with the block's two hex captures. -/
theorem hdrScan_block (b : SynBlock) (hb : wfBlock b) (rest : List Char) (f p : Nat)
    (hf : (renderBlock b ++ rest).length ≤ f) :
    scanAux hdrM f p (renderBlock b ++ rest) true =
      (p, (b.h1, b.h2)) :: scanAux hdrM rest.length (p + (renderBlock b).length) rest true := by
  obtain ⟨hh1, ha1, _, hh2, ha2, _, htl, htlh, _, hstats⟩ := hb
  have hhm : headerMatch (renderBlock b ++ rest) = some (b.h1, b.h2) := by
    rw [renderBlock_expand]
    refine headerMatch_build b.h1 b.h2 _ hh1 ha1 hh2 ha2 (fun c hc => ?_)
    cases htail : b.tail with
    | nil =>
      rw [htail] at hc
      have : c = '\n' := by simpa using hc.symm
      subst this
      decide
    | cons t ts =>
      rw [htail] at hc
      have : c = t := by simpa using hc.symm
      subst this
      exact htlh c (by rw [htail]; rfl)
  have hMlen : hdrM (renderBlock b ++ rest)
      = some ((b.h1, b.h2), b.h1.length + 1 + b.h2.length) := hdrM_some _ _ hhm
  have hlen1 : 1 ≤ (renderBlock b ++ rest).length := by
    rw [renderBlock_expand]
    simp only [List.length_append, List.length_cons]
    omega
  obtain ⟨L', hL'⟩ : ∃ L', (renderBlock b ++ rest).length = L' + 1 :=
    ⟨(renderBlock b ++ rest).length - 1, by omega⟩
  rw [scanAux_fuel hdrM hdrM_pos f ((renderBlock b ++ rest).length) p _ true hf le_rfl, hL',
    scanAux_match' hdrM L' p _
      (by intro h; rw [h] at hlen1; simp at hlen1) _ _ hMlen]
  congr 1
  have hdrop : (renderBlock b ++ rest).drop (b.h1.length + 1 + b.h2.length)
      = b.tail ++ '\n' :: (statText b ++ rest) := by
    rw [renderBlock_expand]
    have hgr : b.h1 ++ '-' :: b.h2 ++ (b.tail ++ '\n' :: (statText b ++ rest))
        = (b.h1 ++ '-' :: b.h2) ++ (b.tail ++ '\n' :: (statText b ++ rest)) := by simp
    have hlen : (b.h1 ++ '-' :: b.h2).length = b.h1.length + 1 + b.h2.length := by
      simp only [List.length_append, List.length_cons]
      omega
    rw [hgr, ← hlen, List.drop_left]
  rw [hdrop]
  have hL'ge : (b.tail ++ '\n' :: (statText b ++ rest)).length ≤ L' := by
    rw [renderBlock_expand] at hL'
    simp only [List.length_append, List.length_cons] at hL' ⊢
    omega
  rw [scanAux_fuel hdrM hdrM_pos L' (b.tail.length + ((statText b ++ rest).length + 1))
      _ _ false hL'ge (by simp only [List.length_append, List.length_cons]; omega),
    scanAux_skip hdrM b.tail ((statText b ++ rest).length + 1)
      (p + (b.h1.length + 1 + b.h2.length)) ('\n' :: (statText b ++ rest)) htl,
    scanAux_newline]
  have hst : statText b = (b.stats.map renderStat).join := rfl
  rw [hst, hdrScan_stats b.stats hstats rest ((b.stats.map renderStat).join ++ rest).length
    (p + (b.h1.length + 1 + b.h2.length) + b.tail.length + 1) le_rfl]
  have hp : p + (b.h1.length + 1 + b.h2.length) + b.tail.length + 1
        + ((b.stats.map renderStat).join).length
      = p + (renderBlock b).length := by
    rw [renderBlock_length, ← hst]
    omega
  rw [hp]

theorem renderReport_cons (b : SynBlock) (bs : List SynBlock) :
    renderReport (b :: bs) = renderBlock b ++ renderReport bs := by
  simp [renderReport]

/-- The header scan of a well-formed report finds exactly the block starts,
in order, with each block's captures. -/
theorem hdrScan_report : ∀ (bs : List SynBlock), (∀ b ∈ bs, wfBlock b) →
    ∀ (f p : Nat), (renderReport bs).length ≤ f →
      (scanAux hdrM f p (renderReport bs) true).map (·.1) = offsetsFrom p bs
  | [], _, f, p, _ => by
    show (scanAux hdrM f p (renderReport []) true).map (·.1) = offsetsFrom p []
    rw [show renderReport [] = [] from rfl, scanAux_nil]
    rfl
  | b :: bs, hwf, f, p, hf => by
    rw [renderReport_cons] at hf ⊢
    rw [hdrScan_block b (hwf b (by simp)) (renderReport bs) f p hf]
    simp only [List.map_cons]
    rw [hdrScan_report bs (fun x hx => hwf x (by simp [hx])) (renderReport bs).length
      (p + (renderBlock b).length) le_rfl]
    rfl

/-- `find_iter` over a rendered well-formed report yields exactly the block
start offsets. -/
theorem hdrStarts_render (bs : List SynBlock) (hwf : ∀ b ∈ bs, wfBlock b) :
    hdrStarts (renderReport bs) = offsetsFrom 0 bs :=
  hdrScan_report bs hwf (renderReport bs).length 0 le_rfl

/-- The statistic scan of one well-formed block's statistic lines yields
exactly the rendered `(name, digits)` pairs, in order. -/
theorem kvScan_stats : ∀ (stats : List SynStat), (∀ s ∈ stats, wfStat s) →
    ∀ (f p : Nat), ((stats.map renderStat).join).length ≤ f →
      (scanAux kvMatchAt f p ((stats.map renderStat).join) true).map (·.2) =
        stats.map (fun s => (s.name, s.digits))
  | [], _, f, p, _ => by
    rw [show (([] : List SynStat).map renderStat).join = [] from rfl, scanAux_nil]
    rfl
  | s :: stats, hwf, f, p, hf => by
    have hs := hwf s (by simp)
    have hwf' : ∀ x ∈ stats, wfStat x := fun x hx => hwf x (by simp [hx])
    have hjoin : ((s :: stats).map renderStat).join
        = renderStat s ++ (stats.map renderStat).join := by
      simp
    have hform : renderStat s ++ (stats.map renderStat).join
        = s.name ++ ':' :: ([' '] ++ (s.digits ++ ' ' :: 'k' :: 'B' ::
            ('\n' :: (stats.map renderStat).join))) := by
      simp [renderStat, statBody]
    have hmatch : kvMatchAt (renderStat s ++ (stats.map renderStat).join)
        = some ((s.name, s.digits), s.name.length + 1 + 1 + s.digits.length + 3) := by
      rw [hform]
      have := kvMatchAt_build s.name [' '] s.digits ('\n' :: (stats.map renderStat).join)
        hs.1 (fun c hc => (hs.2.1 c hc).1) (by decide) hs.2.2.2.1 hs.2.2.2.2.1
      simpa using this
    have hne : renderStat s ++ (stats.map renderStat).join ≠ [] := by
      rw [renderStat_split]
      simp
    have hlen1 : 1 ≤ (renderStat s ++ (stats.map renderStat).join).length := by
      rcases h : renderStat s ++ (stats.map renderStat).join with _ | ⟨c, cs⟩
      · exact absurd h hne
      · simp
    obtain ⟨L', hL'⟩ : ∃ L', (renderStat s ++ (stats.map renderStat).join).length = L' + 1 :=
      ⟨(renderStat s ++ (stats.map renderStat).join).length - 1, by omega⟩
    rw [hjoin, scanAux_fuel kvMatchAt kvMatchAt_pos f
        ((renderStat s ++ (stats.map renderStat).join).length) p _ true (by rw [hjoin] at hf; exact hf) le_rfl,
      hL', scanAux_match' kvMatchAt L' p _ hne _ _ hmatch]
    simp only [List.map_cons]
    congr 1
    have hdrop : (renderStat s ++ (stats.map renderStat).join).drop
        (s.name.length + 1 + 1 + s.digits.length + 3)
        = '\n' :: (stats.map renderStat).join := by
      rw [renderStat_split]
      have hlen : (statBody s).length = s.name.length + 1 + 1 + s.digits.length + 3 := by
        simp [statBody]
        omega
      rw [← hlen, List.drop_left]
    rw [hdrop]
    have hL'ge : ('\n' :: (stats.map renderStat).join).length ≤ L' := by
      rw [renderStat_split] at hL'
      simp only [List.length_append, List.length_cons] at hL' ⊢
      have hbl : (statBody s).length = s.name.length + 1 + 1 + s.digits.length + 3 := by
        simp [statBody]
        omega
      omega
    rw [scanAux_fuel kvMatchAt kvMatchAt_pos L' (((stats.map renderStat).join).length + 1)
        _ _ false hL'ge (by simp),
      scanAux_newline,
      kvScan_stats stats hwf' ((stats.map renderStat).join).length _ le_rfl]

theorem headerLine_ne_nil (b : SynBlock) (hh1 : b.h1 ≠ []) : headerLine b ≠ [] := by
  unfold headerLine
  cases hc : b.h1 with
  | nil => exact absurd hc hh1
  | cons c cs => simp

theorem headerLine_no_newline (b : SynBlock) (ha1 : ∀ c ∈ b.h1, isHexDigit c = true)
    (ha2 : ∀ c ∈ b.h2, isHexDigit c = true) (htl : ∀ c ∈ b.tail, ¬ c = '\n') :
    ∀ c ∈ headerLine b, ¬ c = '\n' := by
  intro c hc
  unfold headerLine at hc
  rcases List.mem_append.mp hc with h | h
  · rcases List.mem_append.mp h with h1 | h1
    · exact hex_ne_newline c (ha1 c h1)
    · simp only [List.mem_cons] at h1
      rcases h1 with rfl | h1
      · decide
      · exact hex_ne_newline c (ha2 c h1)
  · exact htl c h

theorem renderBlock_split (b : SynBlock) :
    renderBlock b = headerLine b ++ '\n' :: statText b := rfl

/-- The statistic scan of a whole well-formed block: the header line yields
nothing (by well-formedness) and the statistic lines yield their pairs. -/
theorem kvScan_block (b : SynBlock) (hb : wfBlock b) :
    kvScan (renderBlock b) = b.stats.map (fun s => (s.name, s.digits)) := by
  obtain ⟨hh1, ha1, _, hh2, ha2, _, htl, _, hkv, hstats⟩ := hb
  unfold kvScan
  rw [renderBlock_split,
    scanAux_skip_line kvMatchAt kvMatchAt_pos (headerLine b) (statText b)
      (headerLine_ne_nil b hh1) (headerLine_no_newline b ha1 ha2 htl)
      (by rw [← renderBlock_split]; exact hkv)
      (headerLine b ++ '\n' :: statText b).length 0 le_rfl]
  exact kvScan_stats b.stats hstats (statText b).length (0 + (headerLine b).length + 1) le_rfl

/-- Re-capturing the header on a well-formed block's chunk returns the
block's two hex captures (the chunk starts with its header match). -/
theorem capturesFirst_block (b : SynBlock) (hb : wfBlock b) :
    capturesFirst (renderBlock b) = some (b.h1, b.h2) := by
  obtain ⟨hh1, ha1, _, hh2, ha2, _, htl, htlh, _, _⟩ := hb
  have hhm : headerMatch (renderBlock b) = some (b.h1, b.h2) := by
    have := renderBlock_expand b []
    rw [List.append_nil] at this
    rw [this]
    refine headerMatch_build b.h1 b.h2 _ hh1 ha1 hh2 ha2 (fun c hc => ?_)
    cases htail : b.tail with
    | nil =>
      rw [htail] at hc
      have hcn : c = '\n' := by simpa using hc.symm
      subst hcn
      decide
    | cons t ts =>
      rw [htail] at hc
      have hct : c = t := by simpa using hc.symm
      subst hct
      exact htlh c (by rw [htail]; rfl)
  have hne : renderBlock b ≠ [] := by
    rw [renderBlock_split]
    cases hc : headerLine b <;> simp
  have hlen1 : 1 ≤ (renderBlock b).length := by
    rcases h : renderBlock b with _ | ⟨c, cs⟩
    · exact absurd h hne
    · simp
  obtain ⟨L', hL'⟩ : ∃ L', (renderBlock b).length = L' + 1 :=
    ⟨(renderBlock b).length - 1, by omega⟩
  unfold capturesFirst
  rw [hL', scanAux_match' hdrM L' 0 _ hne _ _ (hdrM_some _ _ hhm)]
  rfl

theorem optList_decode_stats (stats : List SynStat) (h : ∀ s ∈ stats, wfStat s) :
    optList (fun kv => (decVal? kv.2).map (fun v => (String.mk kv.1, v)))
      (stats.map (fun s => (s.name, s.digits)))
      = some (stats.map (fun s => (String.mk s.name, decFold s.digits))) := by
  induction stats with
  | nil => rfl
  | cons s stats ih =>
    have hs := h s (by simp)
    have hdec : decVal? s.digits = some (decFold s.digits) := by
      unfold decVal?
      rw [if_pos ⟨hs.2.2.2.1, hs.2.2.2.2.1, hs.2.2.2.2.2⟩]
    simp [optList, hdec, ih (fun x hx => h x (by simp [hx]))]

/-- Parsing the window of one well-formed block inside a report yields the
block's expected region. -/
theorem parseWindow_block (pre suf : List Char) (b : SynBlock) (hb : wfBlock b) :
    parseWindow (pre ++ (renderBlock b ++ suf)) pre.length
      (pre.length + (renderBlock b).length) = some (expectedRegion b) := by
  have hb' := hb
  obtain ⟨hh1, ha1, hv1, hh2, ha2, hv2, _, _, _, hstats⟩ := hb'
  have hchunk : ((pre ++ (renderBlock b ++ suf)).drop pre.length).take
      (pre.length + (renderBlock b).length - pre.length) = renderBlock b := by
    rw [List.drop_left]
    have h1 : pre.length + (renderBlock b).length - pre.length = (renderBlock b).length := by
      omega
    rw [h1, List.take_left]
  have e1 : hexVal? b.h1 = some (hexFold b.h1) := by
    unfold hexVal?
    rw [if_pos ⟨hh1, ha1, hv1⟩]
  have e2 : hexVal? b.h2 = some (hexFold b.h2) := by
    unfold hexVal?
    rw [if_pos ⟨hh2, ha2, hv2⟩]
  unfold parseWindow
  dsimp only
  rw [hchunk, capturesFirst_block b hb, kvScan_block b hb, optList_decode_stats b.stats hstats]
  simp [e1, e2, expectedRegion, expectedStats]

/-- The boundary list of a rendered suffix always starts with its base offset
(`renderReport [] = []` makes the terminal boundary coincide with it). -/
theorem offsets_cons (bs : List SynBlock) (q : Nat) :
    ∃ L', offsetsFrom q bs ++ [q + (renderReport bs).length] = q :: L' := by
  cases bs with
  | nil => exact ⟨[], by simp [offsetsFrom, renderReport]⟩
  | cons b bs =>
    exact ⟨offsetsFrom (q + (renderBlock b).length) bs
      ++ [q + (renderReport (b :: bs)).length], by simp [offsetsFrom]⟩

/-- Folding `parseWindow` over the adjacent boundary pairs of a well-formed
report (placed after an arbitrary prefix `pre` of the text) yields the
expected regions. -/
theorem windows_parse : ∀ (bs : List SynBlock) (pre : List Char), (∀ b ∈ bs, wfBlock b) →
    optList (fun w => parseWindow (pre ++ renderReport bs) w.1 w.2)
      ((offsetsFrom pre.length bs ++ [pre.length + (renderReport bs).length]).zip
        (offsetsFrom pre.length bs ++ [pre.length + (renderReport bs).length]).tail)
      = some (bs.map expectedRegion)
  | [], pre, _ => by
    simp [offsetsFrom, optList]
  | b :: bs, pre, hwf => by
    have hwfb := hwf b (by simp)
    have hwf' : ∀ x ∈ bs, wfBlock x := fun x hx => hwf x (by simp [hx])
    have hT : pre.length + (renderReport (b :: bs)).length
        = (pre.length + (renderBlock b).length) + (renderReport bs).length := by
      rw [renderReport_cons]
      simp only [List.length_append]
      omega
    have hlist : offsetsFrom pre.length (b :: bs)
          ++ [pre.length + (renderReport (b :: bs)).length]
        = pre.length :: (offsetsFrom (pre.length + (renderBlock b).length) bs
          ++ [(pre.length + (renderBlock b).length) + (renderReport bs).length]) := by
      rw [hT]
      rfl
    obtain ⟨L', hL⟩ := offsets_cons bs (pre.length + (renderBlock b).length)
    have hfirst : parseWindow (pre ++ renderReport (b :: bs)) pre.length
        (pre.length + (renderBlock b).length) = some (expectedRegion b) := by
      rw [renderReport_cons]
      exact parseWindow_block pre (renderReport bs) b hwfb
    have hIH := windows_parse bs (pre ++ renderBlock b) hwf'
    have hpl : (pre ++ renderBlock b).length = pre.length + (renderBlock b).length := by
      simp
    have htext : (pre ++ renderBlock b) ++ renderReport bs = pre ++ renderReport (b :: bs) := by
      rw [renderReport_cons, List.append_assoc]
    rw [hpl, hL, htext, List.tail_cons] at hIH
    rw [hlist, hL, List.tail_cons, List.zip_cons_cons]
    simp only [optList, hfirst, hIH, List.map_cons]

/-- `Smaps::new` on a rendered well-formed report yields exactly the expected
region per block, in block order. -/
theorem smapsNew_renderReport (bs : List SynBlock) (hwf : ∀ b ∈ bs, wfBlock b) :
    smapsNew (renderReport bs) = some (bs.map expectedRegion) := by
  unfold smapsNew
  dsimp only
  rw [hdrStarts_render bs hwf]
  have h := windows_parse bs [] hwf
  simp only [List.length_nil, List.nil_append, Nat.zero_add] at h
  exact h

/-- C4: a well-formed report with N non-overlapping header blocks parses to
exactly N region records, in block order, each with the `[start, end)`
decoded from the header's two base-16 numbers and the StatMap collected from
exactly its own block's matched statistic lines. -/
theorem parse_wellformed_roundtrip (bs : List SynBlock) (hwf : ∀ b ∈ bs, wfBlock b)
    (hdisj : bs.Pairwise
      (fun a b => hexFold a.h2 ≤ hexFold b.h1 ∨ hexFold b.h2 ≤ hexFold a.h1)) :
    smapsNew (renderReport bs) = some (bs.map expectedRegion) ∧
    (bs.map expectedRegion).length = bs.length :=
  ⟨smapsNew_renderReport bs hwf, by simp⟩

/-- The two-block report of the specification's §8 scenario, as synthetic
blocks. -/
def exampleBlocks : List SynBlock :=
  [⟨"00400000".toList, "00401000".toList, " r-xp 00000000 00:00 0".toList,
      [⟨"Rss".toList, "4".toList⟩, ⟨"Pss".toList, "4".toList⟩]⟩,
   ⟨"00600000".toList, "00601000".toList, " rw-p 00000000 00:00 0".toList,
      [⟨"Rss".toList, "8".toList⟩]⟩]

/-- C4 witness. -/
theorem parse_wellformed_roundtrip_witness :
    ((∀ b ∈ exampleBlocks, wfBlock b) ∧
      exampleBlocks.Pairwise
        (fun a b => hexFold a.h2 ≤ hexFold b.h1 ∨ hexFold b.h2 ≤ hexFold a.h1)) ∧
    (smapsNew (renderReport exampleBlocks) = some (exampleBlocks.map expectedRegion) ∧
      (exampleBlocks.map expectedRegion).length = exampleBlocks.length) :=
  ⟨⟨by decide, by decide⟩, parse_wellformed_roundtrip exampleBlocks (by decide) (by decide)⟩

/-- C9 amended: the parser imposes no relation between the two decoded
numbers; `start ≤ end'` holds for all records of reports whose headers all
have first number ≤ second number (and can fail otherwise, see the
counterexample). -/
theorem start_le_end_of_ordered_headers (bs : List SynBlock)
    (hwf : ∀ b ∈ bs, wfBlock b)
    (hord : ∀ b ∈ bs, hexFold b.h1 ≤ hexFold b.h2) :
    smapsNew (renderReport bs) = some (bs.map expectedRegion) ∧
    ∀ r ∈ bs.map expectedRegion, r.start ≤ r.end' := by
  refine ⟨smapsNew_renderReport bs hwf, ?_⟩
  intro r hr
  obtain ⟨b, hb, rfl⟩ := List.mem_map.mp hr
  exact hord b hb

/-- C9 amended witness. -/
theorem start_le_end_of_ordered_headers_witness :
    ((∀ b ∈ exampleBlocks, wfBlock b) ∧
      (∀ b ∈ exampleBlocks, hexFold b.h1 ≤ hexFold b.h2)) ∧
    (smapsNew (renderReport exampleBlocks) = some (exampleBlocks.map expectedRegion) ∧
      ∀ r ∈ exampleBlocks.map expectedRegion, r.start ≤ r.end') :=
  ⟨⟨by decide, by decide⟩,
    start_le_end_of_ordered_headers exampleBlocks (by decide) (by decide)⟩

/-- C7: a well-formed block with zero statistic lines parses to a record with
an empty StatMap, and every lookup against an empty StatMap — in particular
the `"Rss"` lookup done by `get_rss` — yields `none` (`StatisticAbsent`),
never a zero default. -/
theorem empty_block_statistic_absent (bs : List SynBlock) (i : Nat) (hi : i < bs.length)
    (hwf : ∀ b ∈ bs, wfBlock b) (hempty : (bs.get ⟨i, hi⟩).stats = []) :
    smapsNew (renderReport bs) = some (bs.map expectedRegion) ∧
    (expectedRegion (bs.get ⟨i, hi⟩)).stats = [] ∧
    (∀ k, btreeGet (expectedRegion (bs.get ⟨i, hi⟩)).stats k = none) ∧
    (∀ (regs : List Region) (addr : Nat), get_map regs addr = some [] →
      get_rss regs addr = some none) := by
  have hstats : (expectedRegion (bs.get ⟨i, hi⟩)).stats = [] := by
    rw [List.get_eq_getElem] at hempty
    simp [expectedRegion, expectedStats, btreeOfList, hempty]
  refine ⟨smapsNew_renderReport bs hwf, hstats, ?_, ?_⟩
  · intro k
    rw [hstats]
    rfl
  · intro regs addr h
    simp [get_rss, h, btreeGet]

/-- A one-block report whose block has no statistic lines. -/
def emptyStatBlocks : List SynBlock := [⟨"aa".toList, "ff".toList, " r:1".toList, []⟩]

/-- C7 witness. -/
theorem empty_block_statistic_absent_witness :
    ((∀ b ∈ emptyStatBlocks, wfBlock b) ∧
      (emptyStatBlocks.get ⟨0, by decide⟩).stats = []) ∧
    (smapsNew (renderReport emptyStatBlocks) = some (emptyStatBlocks.map expectedRegion) ∧
      (expectedRegion (emptyStatBlocks.get ⟨0, by decide⟩)).stats = [] ∧
      (∀ k, btreeGet (expectedRegion (emptyStatBlocks.get ⟨0, by decide⟩)).stats k = none) ∧
      (∀ (regs : List Region) (addr : Nat), get_map regs addr = some [] →
        get_rss regs addr = some none)) :=
  ⟨⟨by decide, by decide⟩,
    empty_block_statistic_absent emptyStatBlocks 0 (by decide) (by decide) (by decide)⟩

/-- C5 amended: the StatMap key is the verbatim `([^:]+)` capture — the whole
text before the colon, surrounding whitespace included; no trimming happens. -/
theorem stat_key_stored_verbatim (name ws ds tl : List Char)
    (hname : name ≠ []) (hnc : ∀ c ∈ name, ¬ c = ':')
    (hws : ∀ c ∈ ws, isWS c = true) (hds : ds ≠ [])
    (hdig : ∀ c ∈ ds, c.isDigit = true) :
    kvMatchAt (name ++ ':' :: (ws ++ (ds ++ ' ' :: 'k' :: 'B' :: tl)))
      = some ((name, ds), name.length + 1 + ws.length + ds.length + 3) :=
  kvMatchAt_build name ws ds tl hname hnc hws hds hdig

/-- C5 amended witness: the line ` Rss : 4 kB` captures the key `" Rss "`,
spaces and all. -/
theorem stat_key_stored_verbatim_witness :
    (" Rss ".toList ≠ [] ∧ (∀ c ∈ " Rss ".toList, ¬ c = ':') ∧
      (∀ c ∈ [' '], isWS c = true) ∧ "4".toList ≠ [] ∧
      (∀ c ∈ "4".toList, Char.isDigit c = true)) ∧
    kvMatchAt (" Rss ".toList ++ ':' :: ([' '] ++ ("4".toList ++ ' ' :: 'k' :: 'B' :: "\n".toList)))
      = some ((" Rss ".toList, "4".toList),
          " Rss ".toList.length + 1 + [' '].length + "4".toList.length + 3) :=
  ⟨⟨by decide, by decide, by decide, by decide, by decide⟩,
    stat_key_stored_verbatim " Rss ".toList [' '] "4".toList "\n".toList
      (by decide) (by decide) (by decide) (by decide) (by decide)⟩
